import Mathlib

/-
Verification of the compact-trie library `ctrie` (file `ctrie/__init__.py`).

Words are modelled as `List Char`; the Python `dict` used for the children of
a node is modelled as an association list in insertion order (Python 3 dicts
iterate in insertion order; assignment to an existing key updates it in
place, assignment to a fresh key appends, `del` removes the entry).
Each Python method is translated into a Lean function below; methods that
mutate their receiver become functions returning the new trie (together
with their boolean result where the source returns one).
-/

namespace Ctrie

/-- Words: Python strings, as lists of characters. -/
abbrev Str := List Char

/-- Model of `_cut_prefix(p, word)` of the source: if `p` is a leading part of
`word`, return the trailing part of `word`, else `none`. -/
def cutp : Str → Str → Option Str
  | [], w => some w
  | _ :: _, [] => none
  | a :: p, b :: w => if a = b then cutp p w else none

/-- Model of `_longuest_common_prefix(w1, w2)` of the source. -/
def lcp : Str → Str → Str
  | a :: w1, b :: w2 => if a = b then a :: lcp w1 w2 else []
  | _, _ => []

/-- A compact trie node: the `terminal` flag and the children mapping
(`CTrie.__slots__ = ['_children', 'terminal']`). -/
inductive CTrie where
  | node (terminal : Bool) (children : List (Str × CTrie))

/-- The `terminal` flag of a node. -/
def CTrie.terminal : CTrie → Bool
  | .node b _ => b

/-- The `_children` mapping of a node. -/
def CTrie.children : CTrie → List (Str × CTrie)
  | .node _ cs => cs

/-- Assignment `self.terminal = b`. -/
def CTrie.setTerminal : CTrie → Bool → CTrie
  | .node _ cs, b => .node b cs

/-- The fresh trie `CTrie()`. -/
def emptyT : CTrie := .node false []

instance : Inhabited CTrie := ⟨emptyT⟩

/-- Dict lookup `d[k]` / `k in d` (first matching key). -/
def dictGet : List (Str × CTrie) → Str → Option CTrie
  | [], _ => none
  | (p, c) :: rest, k => if p = k then some c else dictGet rest k

/-- Dict assignment `d[k] = v`: update in place if the key is present,
append otherwise. -/
def dictSet : List (Str × CTrie) → Str → CTrie → List (Str × CTrie)
  | [], k, v => [(k, v)]
  | (p, c) :: rest, k, v =>
    if p = k then (k, v) :: rest else (p, c) :: dictSet rest k v

/-- Dict deletion `del d[k]`. -/
def dictDel : List (Str × CTrie) → Str → List (Str × CTrie)
  | [], _ => []
  | (p, c) :: rest, k => if p = k then rest else (p, c) :: dictDel rest k

/-- Model of `is_empty()`: no children and not terminal. -/
def is_empty : CTrie → Bool
  | .node term cs => !term && cs.isEmpty

/-- The second scan of `_add`: the first child label sharing a non-empty
common part with the inserted word (the candidate for splitting).  The same
scan, verbatim, is the loop of `subtree`. -/
def findSplit : List (Str × CTrie) → Str → Option (Str × CTrie)
  | [], _ => none
  | (p, c) :: rest, w => if lcp p w ≠ [] then some (p, c) else findSplit rest w

mutual

/-- Model of `CTrie._add(word)` (also of the public `add` restricted to one
word, which merely delegates to `_add`): returns the boolean result and the
updated trie. -/
def addW : CTrie → Str → Bool × CTrie
  | .node term cs, w =>
    if w = [] then
      if term then (false, .node term cs) else (true, .node true cs)
    else if cs.isEmpty then
      (true, .node term [(w, .node true [])])
    else
      match scanAdd cs w with
      | some (b, cs') => (b, .node term cs')
      | none =>
        match findSplit cs w with
        | some (p, c) =>
          (true, .node term (dictSet (dictDel cs p) (lcp p w)
            (.node false (dictSet (dictSet [] (p.drop (lcp p w).length) c)
                                  (w.drop (lcp p w).length) (.node true [])))))
        | none => (true, .node term (dictSet cs w (.node true [])))

/-- The first scan of `_add`: look for a child whose label equals the word
(set its terminal flag) or is a leading part of the word (recurse into it);
`none` when no child matches and control falls through to the split scan. -/
def scanAdd : List (Str × CTrie) → Str → Option (Bool × List (Str × CTrie))
  | [], _ => none
  | (p, c) :: rest, w =>
    if p = w then
      some (if c.terminal then (false, (p, c) :: rest)
            else (true, (p, c.setTerminal true) :: rest))
    else
      match cutp p w with
      | some tr =>
        match addW c tr with
        | (b, c') => some (b, (p, c') :: rest)
      | none =>
        match scanAdd rest w with
        | some (b, rest') => some (b, (p, c) :: rest')
        | none => none

end

mutual

/-- Model of `CTrie._remove(word)`: returns the boolean result and the
updated trie. -/
def removeW : CTrie → Str → Bool × CTrie
  | .node term cs, w =>
    if w = [] then (true, .node false cs)
    else
      match scanRemove cs w with
      | some (b, cs') => (b, .node term cs')
      | none => (false, .node term cs)

/-- The scan of `_remove`: the first child whose label is a leading part of
the word; recurse into it and drop it afterwards if it became empty. -/
def scanRemove : List (Str × CTrie) → Str → Option (Bool × List (Str × CTrie))
  | [], _ => none
  | (p, c) :: rest, w =>
    match cutp p w with
    | some tr =>
      match removeW c tr with
      | (b, c') => some (b, if is_empty c' then rest else (p, c') :: rest)
    | none =>
      match scanRemove rest w with
      | some (b, rest') => some (b, (p, c) :: rest')
      | none => none

end

mutual

/-- Model of `CTrie.__contains__(word)`. -/
def containsW : CTrie → Str → Bool
  | .node term cs, w => (if w = [] then term else false) || containsL cs w

/-- The scan of `__contains__` over the children. -/
def containsL : List (Str × CTrie) → Str → Bool
  | [], _ => false
  | (p, c) :: rest, w =>
    (match cutp p w with
     | some tr => containsW c tr
     | none => false) || containsL rest w

end

mutual

/-- Model of `CTrie.values()`, as the list of words it yields in order. -/
def values : CTrie → List Str
  | .node term cs =>
    if is_empty (.node term cs) then []
    else (if term then [([] : Str)] else []) ++ valuesL cs

/-- The child loop of `values`: each child yields its own values with the
child's label prepended. -/
def valuesL : List (Str × CTrie) → List Str
  | [] => []
  | (p, c) :: rest => (values c).map (fun v => p ++ v) ++ valuesL rest

end

mutual

/-- Model of `CTrie.__len__()`: the number of terminal nodes. -/
def lengthW : CTrie → Nat
  | .node term cs => (if term then 1 else 0) + lengthL cs

/-- Sum of the lengths of the children. -/
def lengthL : List (Str × CTrie) → Nat
  | [] => 0
  | (_, c) :: rest => lengthW c + lengthL rest

end

mutual

/-- Model of `CTrie.height()`: 0 without children, otherwise 1 plus the
maximal height of a child. -/
def heightW : CTrie → Nat
  | .node _ cs => if cs.isEmpty then 0 else 1 + heightL cs

/-- Maximum of the heights of the children (0 on an empty list). -/
def heightL : List (Str × CTrie) → Nat
  | [] => 0
  | (_, c) :: rest => max (heightW c) (heightL rest)

end

/-- The loop of `subtree`: the first child whose label shares a non-empty
common part with the requested leading string builds the synthetic result
node (a fresh non-terminal root over a fresh non-terminal node that shares
the found child's children). -/
def scanSub : List (Str × CTrie) → Str → Option CTrie
  | [], _ => none
  | (np, n) :: rest, p =>
    if lcp p np ≠ [] then
      some (.node false [(np.drop (lcp p np).length, .node false n.children)])
    else scanSub rest p

/-- Model of `CTrie.subtree(p)`. -/
def subtreeW (t : CTrie) (p : Str) : CTrie :=
  if p = [] then t
  else
    match dictGet t.children p with
    | some c => c
    | none =>
      match scanSub t.children p with
      | some r => r
      | none => .node false []

/-- Model of `CTrie.__eq__` between two tries: every value of each side is
contained in the other. -/
def eqW (t u : CTrie) : Bool :=
  (values t).all (fun w => containsW u w) && (values u).all (fun w => containsW t w)

/-- Adding a list of words in order, keeping only the trie (the public
`add(*words)` applied for its effect). -/
def addAll (t : CTrie) (ws : List Str) : CTrie :=
  ws.foldl (fun t w => (addW t w).2) t

/-- A word as a list of characters. -/
def s (x : String) : Str := x.toList

/-! ### Reachable tries and structural invariants -/

/-- Tries reachable from the fresh trie `CTrie()` by `add` / `remove` calls. -/
inductive Reach : CTrie → Prop where
  | init : Reach emptyT
  | addR (t w) : Reach t → Reach (addW t w).2
  | removeR (t w) : Reach t → Reach (removeW t w).2

/-- Tries reachable from the fresh trie `CTrie()` by `add` / `remove` /
`subtree` calls. -/
inductive ReachS : CTrie → Prop where
  | init : ReachS emptyT
  | addR (t w) : ReachS t → ReachS (addW t w).2
  | removeR (t w) : ReachS t → ReachS (removeW t w).2
  | subR (t p) : ReachS t → ReachS (subtreeW t p)

/-- No duplicate among a list of labels. -/
def nodupKeys : List Str → Bool
  | [] => true
  | k :: ks => !(ks.contains k) && nodupKeys ks

mutual

/-- Every node of the trie has pairwise distinct child labels. -/
def distinctKeys : CTrie → Bool
  | .node _ cs => nodupKeys (cs.map Prod.fst) && distinctKeysL cs

/-- `distinctKeys` for every child of the list. -/
def distinctKeysL : List (Str × CTrie) → Bool
  | [] => true
  | (_, c) :: rest => distinctKeys c && distinctKeysL rest

end

/-- The label `p` shares no non-empty common leading part with any label of
`ks`. -/
def allLcpNil (p : Str) (ks : List Str) : Bool := ks.all (fun q => lcp p q == [])

/-- Pairwise, the labels share no non-empty common leading part. -/
def pairLcpNil : List Str → Bool
  | [] => true
  | p :: ks => allLcpNil p ks && pairLcpNil ks

mutual

/-- Compaction invariant: at every node of the trie, no two distinct child
labels share a non-empty common leading part. -/
def compactI : CTrie → Bool
  | .node _ cs => pairLcpNil (cs.map Prod.fst) && compactL cs

/-- `compactI` for every child of the list. -/
def compactL : List (Str × CTrie) → Bool
  | [] => true
  | (_, c) :: rest => compactI c && compactL rest

end

mutual

/-- Pruning invariant: no node of the trie has an empty child (a child that
is simultaneously non-terminal and childless). -/
def prunedI : CTrie → Bool
  | .node _ cs => prunedL cs

/-- `prunedI` for every child of the list, each child also being non-empty. -/
def prunedL : List (Str × CTrie) → Bool
  | [] => true
  | (_, c) :: rest => !(is_empty c) && prunedI c && prunedL rest

end

mutual

/-- Some node of the trie has a child labelled by the empty string. -/
def hasEmptyEdge : CTrie → Bool
  | .node _ cs => cs.any (fun e => e.1.isEmpty) || hasEmptyEdgeL cs

/-- `hasEmptyEdge` within some child of the list. -/
def hasEmptyEdgeL : List (Str × CTrie) → Bool
  | [] => false
  | (_, c) :: rest => hasEmptyEdge c || hasEmptyEdgeL rest

end

/-! ### Lemmas on the string helpers -/

theorem cutp_eq_some {p w tr : Str} : cutp p w = some tr ↔ w = p ++ tr := by
  induction p generalizing w with
  | nil => cases w <;> simp [cutp]
  | cons a p ih =>
    cases w with
    | nil => simp [cutp]
    | cons b w =>
      by_cases hab : a = b
      · subst hab
        simp [cutp, ih]
      · simp [cutp, hab, Ne.symm hab]

theorem cutp_self (w : Str) : cutp w w = some [] := by
  rw [cutp_eq_some]
  simp

theorem cutp_eq_none {p w : Str} : cutp p w = none ↔ ∀ tr, w ≠ p ++ tr := by
  rcases h : cutp p w with _ | tr
  · simp only [true_iff]
    intro tr htr
    rw [← @cutp_eq_some p w tr] at htr
    rw [h] at htr
    cases htr
  · rw [cutp_eq_some] at h
    subst h
    simp

theorem lcp_cons_same (c : Char) (a b : Str) :
    lcp (c :: a) (c :: b) = c :: lcp a b := by
  simp [lcp]

theorem lcp_cons_ne {c d : Char} (h : c ≠ d) (a b : Str) :
    lcp (c :: a) (d :: b) = [] := by
  simp [lcp, h]

theorem lcp_nil_left (b : Str) : lcp [] b = [] := by
  cases b <;> simp [lcp]

theorem lcp_nil_right (a : Str) : lcp a [] = [] := by
  cases a <;> simp [lcp]

theorem lcp_append_same (l a b : Str) : lcp (l ++ a) (l ++ b) = l ++ lcp a b := by
  induction l with
  | nil => simp
  | cons c l ih => simpa [lcp_cons_same] using ih

theorem lcp_ne_nil_iff {a b : Str} :
    lcp a b ≠ [] ↔ a ≠ [] ∧ b ≠ [] ∧ a.head? = b.head? := by
  cases a with
  | nil => simp [lcp_nil_left]
  | cons c as =>
    cases b with
    | nil => simp [lcp_nil_right]
    | cons d bs =>
      by_cases hcd : c = d
      · subst hcd
        simp [lcp_cons_same]
      · simp [lcp_cons_ne hcd, hcd]

theorem lcp_recover_left (a b : Str) : lcp a b ++ a.drop (lcp a b).length = a := by
  induction a generalizing b with
  | nil => simp [lcp_nil_left]
  | cons c as ih =>
    cases b with
    | nil => simp [lcp_nil_right]
    | cons d bs =>
      by_cases hcd : c = d
      · subst hcd
        simp [lcp_cons_same, ih]
      · simp [lcp_cons_ne hcd]

theorem lcp_recover_right (a b : Str) : lcp a b ++ b.drop (lcp a b).length = b := by
  induction a generalizing b with
  | nil => simp [lcp_nil_left]
  | cons c as ih =>
    cases b with
    | nil => simp [lcp_nil_right]
    | cons d bs =>
      by_cases hcd : c = d
      · subst hcd
        simp [lcp_cons_same, ih]
      · simp [lcp_cons_ne hcd]

theorem lcp_self_eq_of_cutp {p w tr : Str} (h : cutp p w = some tr) :
    lcp p w = p ∧ w.drop p.length = tr := by
  rw [cutp_eq_some] at h
  subst h
  constructor
  · have := lcp_append_same p [] tr
    simpa [lcp_nil_left] using this
  · simp

theorem lcp_ne_self_of_cutp_none {p w : Str} (h : cutp p w = none) :
    lcp p w ≠ p := by
  intro hl
  rw [cutp_eq_none] at h
  apply h (w.drop p.length)
  have h2 := lcp_recover_right p w
  rw [hl] at h2
  exact h2.symm

/-! ### Lemmas on the dict model -/

theorem dictDel_sublist (cs : List (Str × CTrie)) (k : Str) :
    (dictDel cs k).Sublist cs := by
  induction cs with
  | nil => simp [dictDel]
  | cons e rest ih =>
    obtain ⟨p, c⟩ := e
    by_cases hp : p = k
    · simp only [dictDel, hp, if_true]
      exact List.sublist_cons_self _ _
    · simpa [dictDel, hp] using ih

theorem dictSet_of_not_mem {cs : List (Str × CTrie)} {k : Str} (v : CTrie)
    (h : ∀ e ∈ cs, e.1 ≠ k) : dictSet cs k v = cs ++ [(k, v)] := by
  induction cs with
  | nil => simp [dictSet]
  | cons e rest ih =>
    obtain ⟨p, c⟩ := e
    have hp : p ≠ k := h (p, c) (by simp)
    simp only [dictSet, hp, if_false]
    rw [ih (fun e he => h e (by simp [he]))]
    simp

theorem dictSet_ne_nil (cs : List (Str × CTrie)) (k : Str) (v : CTrie) :
    dictSet cs k v ≠ [] := by
  cases cs with
  | nil => simp [dictSet]
  | cons e rest =>
    obtain ⟨p, c⟩ := e
    by_cases hp : p = k <;> simp [dictSet, hp]

/-! ### Characterisations of the scans -/

theorem scanAdd_none {cs : List (Str × CTrie)} {w : Str}
    (h : scanAdd cs w = none) : ∀ e ∈ cs, e.1 ≠ w ∧ cutp e.1 w = none := by
  induction cs with
  | nil => simp
  | cons e rest ih =>
    obtain ⟨p, c⟩ := e
    rw [scanAdd] at h
    by_cases hp : p = w
    · simp [hp] at h
    · simp only [hp, if_false] at h
      rcases hc : cutp p w with _ | tr
      · rw [hc] at h
        rcases hr : scanAdd rest w with _ | pr
        · intro e he
          rcases List.mem_cons.mp he with rfl | he'
          · exact ⟨hp, hc⟩
          · exact ih hr e he'
        · rw [hr] at h
          obtain ⟨b2, rest'⟩ := pr
          simp at h
      · rw [hc] at h
        simp at h

theorem findSplit_none {cs : List (Str × CTrie)} {w : Str}
    (h : findSplit cs w = none) : ∀ e ∈ cs, lcp e.1 w = [] := by
  induction cs with
  | nil => simp
  | cons e rest ih =>
    obtain ⟨p, c⟩ := e
    rw [findSplit] at h
    by_cases hl : lcp p w = []
    · simp only [hl, ne_eq, not_true_eq_false, if_false] at h
      intro e he
      rcases List.mem_cons.mp he with rfl | he'
      · exact hl
      · exact ih h e he'
    · simp [hl] at h

theorem findSplit_some {cs : List (Str × CTrie)} {w p : Str} {c : CTrie}
    (h : findSplit cs w = some (p, c)) : (p, c) ∈ cs ∧ lcp p w ≠ [] := by
  induction cs with
  | nil => simp [findSplit] at h
  | cons e rest ih =>
    obtain ⟨q, d⟩ := e
    rw [findSplit] at h
    by_cases hl : lcp q w = []
    · simp only [hl, ne_eq, not_true_eq_false, if_false] at h
      obtain ⟨hmem, hne⟩ := ih h
      exact ⟨List.mem_cons_of_mem _ hmem, hne⟩
    · simp only [hl, ne_eq, not_false_eq_true, if_true, Option.some.injEq] at h
      obtain ⟨rfl, rfl⟩ := Prod.mk.injEq .. ▸ h
      exact ⟨List.mem_cons_self _ _, hl⟩

theorem scanAdd_keys {cs : List (Str × CTrie)} {w : Str} {b : Bool}
    {cs' : List (Str × CTrie)} (h : scanAdd cs w = some (b, cs')) :
    cs'.map Prod.fst = cs.map Prod.fst := by
  induction cs generalizing b cs' with
  | nil => simp [scanAdd] at h
  | cons e rest ih =>
    obtain ⟨p, c⟩ := e
    rw [scanAdd] at h
    by_cases hp : p = w
    · subst hp
      rcases ht : c.terminal with _ | _ <;> rw [ht] at h <;>
        simp only [if_true, if_false, Option.some.injEq] at h <;>
        obtain ⟨rfl, rfl⟩ := Prod.mk.injEq .. ▸ h <;>
        cases c <;> simp [CTrie.setTerminal]
    · simp only [hp, if_false] at h
      rcases hc : cutp p w with _ | tr
      · rw [hc] at h
        rcases hr : scanRemove rest w with _ | pr
        all_goals rcases hr2 : scanAdd rest w with _ | ⟨b2, rest'⟩ <;> rw [hr2] at h
        · cases h
        · simp only [Option.some.injEq] at h
          obtain ⟨rfl, rfl⟩ := Prod.mk.injEq .. ▸ h
          simp [ih hr2]
        · cases h
        · simp only [Option.some.injEq] at h
          obtain ⟨rfl, rfl⟩ := Prod.mk.injEq .. ▸ h
          simp [ih hr2]
      · rw [hc] at h
        simp only [Option.some.injEq, Prod.mk.injEq] at h
        obtain ⟨rfl, rfl⟩ := h
        simp

theorem scanRemove_keys {cs : List (Str × CTrie)} {w : Str} {b : Bool}
    {cs' : List (Str × CTrie)} (h : scanRemove cs w = some (b, cs')) :
    (cs'.map Prod.fst).Sublist (cs.map Prod.fst) := by
  induction cs generalizing b cs' with
  | nil => simp [scanRemove] at h
  | cons e rest ih =>
    obtain ⟨p, c⟩ := e
    rw [scanRemove] at h
    rcases hc : cutp p w with _ | tr
    · rw [hc] at h
      rcases hr : scanRemove rest w with _ | ⟨b2, rest'⟩ <;> rw [hr] at h
      · cases h
      · simp only [Option.some.injEq] at h
        obtain ⟨rfl, rfl⟩ := Prod.mk.injEq .. ▸ h
        simpa using ih hr
    · rw [hc] at h
      simp only [Option.some.injEq, Prod.mk.injEq] at h
      obtain ⟨rfl, rfl⟩ := h
      by_cases he : is_empty (removeW c tr).2
      · simp only [he, if_true]
        exact ((List.map Prod.fst rest).sublist_cons_self p)
      · simp [he]

/-! ### Bridges between the boolean invariants and Mathlib predicates -/

theorem nodupKeys_iff {ks : List Str} : nodupKeys ks = true ↔ ks.Nodup := by
  induction ks with
  | nil => simp [nodupKeys]
  | cons k ks ih => simp [nodupKeys, ih, List.elem_iff]

theorem allLcpNil_iff {p : Str} {ks : List Str} :
    allLcpNil p ks = true ↔ ∀ q ∈ ks, lcp p q = [] := by
  simp [allLcpNil]

theorem pairLcpNil_iff {ks : List Str} :
    pairLcpNil ks = true ↔ ks.Pairwise (fun a b => lcp a b = []) := by
  induction ks with
  | nil => simp [pairLcpNil]
  | cons k ks ih => simp [pairLcpNil, allLcpNil_iff, ih]

theorem distinctKeysL_iff {cs : List (Str × CTrie)} :
    distinctKeysL cs = true ↔ ∀ e ∈ cs, distinctKeys e.2 = true := by
  induction cs with
  | nil => simp [distinctKeysL]
  | cons e rest ih =>
    obtain ⟨p, c⟩ := e
    simp [distinctKeysL, ih]

theorem compactL_iff {cs : List (Str × CTrie)} :
    compactL cs = true ↔ ∀ e ∈ cs, compactI e.2 = true := by
  induction cs with
  | nil => simp [compactL]
  | cons e rest ih =>
    obtain ⟨p, c⟩ := e
    simp [compactL, ih]

theorem prunedL_iff {cs : List (Str × CTrie)} :
    prunedL cs = true ↔ ∀ e ∈ cs, is_empty e.2 = false ∧ prunedI e.2 = true := by
  induction cs with
  | nil => simp [prunedL]
  | cons e rest ih =>
    obtain ⟨p, c⟩ := e
    simp only [prunedL, Bool.and_eq_true, ih, List.mem_cons]
    constructor
    · rintro ⟨⟨hne, hp⟩, hrest⟩ e he
      rcases he with rfl | he'
      · exact ⟨by simpa using hne, hp⟩
      · exact hrest e he'
    · intro h
      obtain ⟨h1, h2⟩ := h (p, c) (Or.inl rfl)
      exact ⟨⟨by simpa using h1, h2⟩, fun e he => h e (Or.inr he)⟩

/-! ### Helper lemmas for the preservation proofs -/

theorem lcp_comm (a b : Str) : lcp a b = lcp b a := by
  induction a generalizing b with
  | nil => simp [lcp_nil_left, lcp_nil_right]
  | cons c as ih =>
    cases b with
    | nil => simp [lcp_nil_left, lcp_nil_right]
    | cons d bs =>
      by_cases hcd : c = d
      · subst hcd
        simp [lcp_cons_same, ih]
      · simp [lcp_cons_ne hcd, lcp_cons_ne (Ne.symm hcd)]

theorem head_append_of_ne_nil {l : Str} (r : Str) (h : l ≠ []) :
    (l ++ r).head? = l.head? := by
  cases l with
  | nil => exact absurd rfl h
  | cons c ls => simp

theorem lcp_nil_of_lcp_nil_append {q l r : Str} (h : lcp q (l ++ r) = [])
    (hl : l ≠ []) : lcp q l = [] := by
  by_contra hne
  obtain ⟨hq, _, hhead⟩ := lcp_ne_nil_iff.mp hne
  have hcon : lcp q (l ++ r) ≠ [] := by
    rw [lcp_ne_nil_iff]
    refine ⟨hq, by simp [hl], ?_⟩
    rw [head_append_of_ne_nil r hl]
    exact hhead
  exact hcon h

theorem lcp_self (p : Str) : lcp p p = p := by
  induction p with
  | nil => simp [lcp_nil_left]
  | cons c ps ih => simp [lcp_cons_same, ih]

theorem setTerminal_children (c : CTrie) (b : Bool) :
    (c.setTerminal b).children = c.children := by
  cases c
  simp [CTrie.setTerminal, CTrie.children]

theorem distinctKeys_setTerminal (c : CTrie) (b : Bool) :
    distinctKeys (c.setTerminal b) = distinctKeys c := by
  cases c
  simp [CTrie.setTerminal, distinctKeys]

theorem compactI_setTerminal (c : CTrie) (b : Bool) :
    compactI (c.setTerminal b) = compactI c := by
  cases c
  simp [CTrie.setTerminal, compactI]

theorem prunedI_setTerminal (c : CTrie) (b : Bool) :
    prunedI (c.setTerminal b) = prunedI c := by
  cases c
  simp [CTrie.setTerminal, prunedI]

theorem is_empty_setTerminal_true (c : CTrie) :
    is_empty (c.setTerminal true) = false := by
  cases c
  simp [CTrie.setTerminal, is_empty]

theorem dictGet_mem {cs : List (Str × CTrie)} {k : Str} {c : CTrie}
    (h : dictGet cs k = some c) : (k, c) ∈ cs := by
  induction cs with
  | nil => simp [dictGet] at h
  | cons e rest ih =>
    obtain ⟨p, d⟩ := e
    rw [dictGet] at h
    by_cases hp : p = k
    · subst hp
      simp only [if_true, Option.some.injEq] at h
      subst h
      exact List.mem_cons_self _ _
    · simp only [hp, if_false] at h
      exact List.mem_cons_of_mem _ (ih h)

theorem scanSub_some {cs : List (Str × CTrie)} {p : Str} {r : CTrie}
    (h : scanSub cs p = some r) :
    ∃ np n, (np, n) ∈ cs ∧
      r = .node false [(np.drop (lcp p np).length, .node false n.children)] := by
  induction cs with
  | nil => simp [scanSub] at h
  | cons e rest ih =>
    obtain ⟨np, n⟩ := e
    rw [scanSub] at h
    by_cases hl : lcp p np = []
    · simp only [hl, ne_eq, not_true_eq_false, if_false] at h
      obtain ⟨np', n', hmem, hr⟩ := ih h
      exact ⟨np', n', List.mem_cons_of_mem _ hmem, hr⟩
    · simp only [hl, ne_eq, not_false_eq_true, if_true, Option.some.injEq] at h
      exact ⟨np, n, List.mem_cons_self _ _, h.symm⟩

theorem del_keys_lcp_nil {cs : List (Str × CTrie)} {p : Str}
    (hpair : (cs.map Prod.fst).Pairwise (fun a b => lcp a b = []))
    (hmem : p ∈ cs.map Prod.fst) :
    ∀ e ∈ dictDel cs p, lcp e.1 p = [] := by
  induction cs with
  | nil => simp [dictDel]
  | cons e rest ih =>
    obtain ⟨q, d⟩ := e
    simp only [List.map_cons, List.pairwise_cons] at hpair
    obtain ⟨hhead, htail⟩ := hpair
    by_cases hq : q = p
    · subst hq
      intro e he
      rw [dictDel, if_pos rfl] at he
      have hqe := hhead e.1 (List.mem_map_of_mem Prod.fst he)
      rw [lcp_comm]
      exact hqe
    · have hmem' : p ∈ rest.map Prod.fst := by
        rw [List.map_cons] at hmem
        rcases List.mem_cons.mp hmem with h | h
        · exact absurd h.symm hq
        · exact h
      intro e he
      rw [dictDel, if_neg hq] at he
      rcases List.mem_cons.mp he with rfl | he'
      · exact hhead p hmem'
      · exact ih htail hmem' e he'

theorem addW_not_empty (t : CTrie) (w : Str) : is_empty (addW t w).2 = false := by
  obtain ⟨term, cs⟩ := t
  rw [addW]
  by_cases hw : w = []
  · subst hw
    cases term <;> simp [is_empty]
  · rw [if_neg hw]
    by_cases hcs : cs.isEmpty = true
    · rw [if_pos hcs]
      simp [is_empty]
    · rw [if_neg hcs]
      rcases hs : scanAdd cs w with _ | ⟨b, cs'⟩
      · rcases hf : findSplit cs w with _ | ⟨p, c⟩
        · simp [is_empty, List.isEmpty_iff, dictSet_ne_nil]
        · simp [is_empty, List.isEmpty_iff, dictSet_ne_nil]
      · have hne : cs' ≠ [] := by
          intro hnil
          subst hnil
          have hk := scanAdd_keys hs
          apply hcs
          rw [List.isEmpty_iff]
          simpa using hk.symm
        simp [is_empty, List.isEmpty_iff, hne]

/-- The situation in which `_add` splits a child: the facts available once
both scans of `_add` have run (no child label equals the word or is a
leading part of it, and the found label shares a non-empty common leading
part with the word). -/
theorem split_facts {cs : List (Str × CTrie)} {w p : Str} {c : CTrie}
    (hnone : scanAdd cs w = none) (hf : findSplit cs w = some (p, c)) :
    (p, c) ∈ cs ∧ lcp p w ≠ [] ∧ p ≠ w ∧
    p = lcp p w ++ p.drop (lcp p w).length ∧
    w = lcp p w ++ w.drop (lcp p w).length ∧
    p.drop (lcp p w).length ≠ w.drop (lcp p w).length ∧
    (∀ e ∈ cs, e.1 ≠ lcp p w) := by
  obtain ⟨hmem, hl⟩ := findSplit_some hf
  have hno := scanAdd_none hnone
  have hpw : p ≠ w := (hno _ hmem).1
  have hp := (lcp_recover_left p w).symm
  have hw2 := (lcp_recover_right p w).symm
  have hdn : p.drop (lcp p w).length ≠ w.drop (lcp p w).length := by
    intro hdeq
    apply hpw
    have h3 : lcp p w ++ p.drop (lcp p w).length
        = lcp p w ++ w.drop (lcp p w).length := by rw [hdeq]
    exact (lcp_recover_left p w).symm.trans (h3.trans (lcp_recover_right p w))
  have hkey : ∀ e ∈ cs, e.1 ≠ lcp p w := by
    intro e he hel
    have hcn := (hno e he).2
    rw [hel, cutp_eq_none] at hcn
    exact hcn (w.drop (lcp p w).length) hw2
  exact ⟨hmem, hl, hpw, hp, hw2, hdn, hkey⟩

/-- In the split case, the dict assignment of the new label appends. -/
theorem split_dictSet {cs : List (Str × CTrie)} {w p : Str} {c : CTrie}
    (hnone : scanAdd cs w = none) (hf : findSplit cs w = some (p, c))
    (v : CTrie) :
    dictSet (dictDel cs p) (lcp p w) v = dictDel cs p ++ [(lcp p w, v)] := by
  obtain ⟨_, _, _, _, _, _, hkey⟩ := split_facts hnone hf
  exact dictSet_of_not_mem v (fun e he => hkey e ((dictDel_sublist cs p).subset he))

/-- In the split case, the children of the intermediate node are the two
expected entries. -/
theorem split_middle {cs : List (Str × CTrie)} {w p : Str} {c : CTrie}
    (hnone : scanAdd cs w = none) (hf : findSplit cs w = some (p, c))
    (u v : CTrie) :
    dictSet (dictSet [] (p.drop (lcp p w).length) u) (w.drop (lcp p w).length) v
      = [(p.drop (lcp p w).length, u), (w.drop (lcp p w).length, v)] := by
  obtain ⟨_, _, _, _, _, hdn, _⟩ := split_facts hnone hf
  simp [dictSet, hdn]

theorem nodup_append_single {ks : List Str} {w : Str} (h : ks.Nodup)
    (hw : w ∉ ks) : (ks ++ [w]).Nodup := by
  rw [List.nodup_append]
  exact ⟨h, List.nodup_singleton w, by simpa using hw⟩

/-! ### Distinct child labels are preserved by every operation -/

mutual

theorem addW_distinct : ∀ (t : CTrie) (w : Str), distinctKeys t = true →
    distinctKeys (addW t w).2 = true
  | .node term cs, w, h => by
    rw [distinctKeys, Bool.and_eq_true] at h
    obtain ⟨hnod, hL⟩ := h
    rw [addW]
    by_cases hw : w = []
    · rw [if_pos hw]
      cases term <;> simp [distinctKeys, hnod, hL]
    · rw [if_neg hw]
      by_cases hcs : cs.isEmpty = true
      · rw [if_pos hcs]
        simp [distinctKeys, distinctKeysL, nodupKeys]
      · rw [if_neg hcs]
        split
        · next b cs' hs =>
          rw [distinctKeys, Bool.and_eq_true]
          refine ⟨?_, scanAdd_distinct cs w hL b cs' hs⟩
          rw [scanAdd_keys hs]
          exact hnod
        · next hs =>
          split
          · next p c hf =>
            obtain ⟨hmem, hl, hpw, hpeq, hweq, hdn, hkey⟩ := split_facts hs hf
            rw [split_dictSet hs hf, distinctKeys, Bool.and_eq_true]
            constructor
            · rw [nodupKeys_iff]
              simp only [List.map_append, List.map_cons, List.map_nil]
              have hsubnod : ((dictDel cs p).map Prod.fst).Nodup :=
                ((dictDel_sublist cs p).map Prod.fst).nodup (nodupKeys_iff.mp hnod)
              apply nodup_append_single hsubnod
              intro hlmem
              obtain ⟨e, he, hel⟩ := List.mem_map.mp hlmem
              exact hkey e ((dictDel_sublist cs p).subset he) hel
            · rw [distinctKeysL_iff]
              intro e he
              rcases List.mem_append.mp he with he | he
              · exact distinctKeysL_iff.mp hL e ((dictDel_sublist cs p).subset he)
              · have he' : e = (lcp p w,
                    CTrie.node false (dictSet (dictSet [] (p.drop (lcp p w).length) c)
                      (w.drop (lcp p w).length) (CTrie.node true []))) := by
                  simpa using he
                subst he'
                rw [split_middle hs hf]
                simp only [distinctKeys, Bool.and_eq_true]
                constructor
                · rw [nodupKeys_iff]
                  simp [hdn]
                · rw [distinctKeysL_iff]
                  intro e2 he2
                  rcases List.mem_cons.mp he2 with rfl | he2'
                  · exact distinctKeysL_iff.mp hL (p, c) hmem
                  · have he2'' : e2 = (w.drop (lcp p w).length, CTrie.node true []) := by
                      simpa using he2'
                    subst he2''
                    simp [distinctKeys, distinctKeysL, nodupKeys]
          · next hf =>
            have hnone := scanAdd_none hs
            have hset : dictSet cs w (.node true []) = cs ++ [(w, .node true [])] :=
              dictSet_of_not_mem _ (fun e he => (hnone e he).1)
            rw [hset, distinctKeys, Bool.and_eq_true]
            constructor
            · rw [nodupKeys_iff] at hnod ⊢
              simp only [List.map_append, List.map_cons, List.map_nil]
              apply nodup_append_single hnod
              intro hwmem
              obtain ⟨e, he, hew⟩ := List.mem_map.mp hwmem
              exact (hnone e he).1 hew
            · rw [distinctKeysL_iff]
              intro e he
              rcases List.mem_append.mp he with he | he
              · exact distinctKeysL_iff.mp hL e he
              · have he' : e = (w, CTrie.node true []) := by simpa using he
                subst he'
                simp [distinctKeys, distinctKeysL, nodupKeys]

theorem scanAdd_distinct : ∀ (cs : List (Str × CTrie)) (w : Str),
    distinctKeysL cs = true → ∀ (b : Bool) (cs' : List (Str × CTrie)),
    scanAdd cs w = some (b, cs') → distinctKeysL cs' = true
  | [], _, _, _, _, h => by simp [scanAdd] at h
  | (p, c) :: rest, w, hL, b, cs', h => by
    rw [distinctKeysL, Bool.and_eq_true] at hL
    obtain ⟨hc, hrest⟩ := hL
    rw [scanAdd] at h
    by_cases hp : p = w
    · subst hp
      rw [if_pos rfl] at h
      rcases ht : c.terminal with _ | _ <;> rw [ht] at h <;>
        simp only [if_true, if_false, Bool.false_eq_true, Option.some.injEq,
          Prod.mk.injEq] at h <;> obtain ⟨rfl, rfl⟩ := h
      · rw [distinctKeysL, Bool.and_eq_true]
        exact ⟨by rw [distinctKeys_setTerminal]; exact hc, hrest⟩
      · rw [distinctKeysL, Bool.and_eq_true]
        exact ⟨hc, hrest⟩
    · rw [if_neg hp] at h
      rcases hcut : cutp p w with _ | tr
      · rw [hcut] at h
        rcases hs2 : scanAdd rest w with _ | ⟨b2, rest'⟩ <;> rw [hs2] at h
        · cases h
        · simp only [Option.some.injEq, Prod.mk.injEq] at h
          obtain ⟨rfl, rfl⟩ := h
          rw [distinctKeysL, Bool.and_eq_true]
          exact ⟨hc, scanAdd_distinct rest w hrest b2 rest' hs2⟩
      · rw [hcut] at h
        simp only [Option.some.injEq, Prod.mk.injEq] at h
        obtain ⟨rfl, rfl⟩ := h
        rw [distinctKeysL, Bool.and_eq_true]
        exact ⟨addW_distinct c tr hc, hrest⟩

end

theorem distinctKeys_node_children (c : CTrie) (b : Bool) :
    distinctKeys (.node b c.children) = distinctKeys c := by
  cases c
  simp [CTrie.children, distinctKeys]

mutual

theorem removeW_distinct : ∀ (t : CTrie) (w : Str), distinctKeys t = true →
    distinctKeys (removeW t w).2 = true
  | .node term cs, w, h => by
    rw [distinctKeys, Bool.and_eq_true] at h
    obtain ⟨hnod, hL⟩ := h
    rw [removeW]
    by_cases hw : w = []
    · rw [if_pos hw]
      rw [distinctKeys, Bool.and_eq_true]
      exact ⟨hnod, hL⟩
    · rw [if_neg hw]
      split
      · next b cs' hs =>
        rw [distinctKeys, Bool.and_eq_true]
        refine ⟨?_, scanRemove_distinct cs w hL b cs' hs⟩
        rw [nodupKeys_iff] at hnod ⊢
        exact (scanRemove_keys hs).nodup hnod
      · next hs =>
        rw [distinctKeys, Bool.and_eq_true]
        exact ⟨hnod, hL⟩

theorem scanRemove_distinct : ∀ (cs : List (Str × CTrie)) (w : Str),
    distinctKeysL cs = true → ∀ (b : Bool) (cs' : List (Str × CTrie)),
    scanRemove cs w = some (b, cs') → distinctKeysL cs' = true
  | [], _, _, _, _, h => by simp [scanRemove] at h
  | (p, c) :: rest, w, hL, b, cs', h => by
    rw [distinctKeysL, Bool.and_eq_true] at hL
    obtain ⟨hc, hrest⟩ := hL
    rw [scanRemove] at h
    rcases hcut : cutp p w with _ | tr
    · rw [hcut] at h
      rcases hs2 : scanRemove rest w with _ | ⟨b2, rest'⟩ <;> rw [hs2] at h
      · cases h
      · simp only [Option.some.injEq, Prod.mk.injEq] at h
        obtain ⟨rfl, rfl⟩ := h
        rw [distinctKeysL, Bool.and_eq_true]
        exact ⟨hc, scanRemove_distinct rest w hrest b2 rest' hs2⟩
    · rw [hcut] at h
      simp only [Option.some.injEq, Prod.mk.injEq] at h
      obtain ⟨rfl, rfl⟩ := h
      by_cases he : is_empty (removeW c tr).2 = true
      · rw [if_pos he]
        exact hrest
      · rw [if_neg he]
        rw [distinctKeysL, Bool.and_eq_true]
        exact ⟨removeW_distinct c tr hc, hrest⟩

end

theorem subtreeW_distinct (t : CTrie) (p : Str) (h : distinctKeys t = true) :
    distinctKeys (subtreeW t p) = true := by
  obtain ⟨term, cs⟩ := t
  rw [subtreeW]
  by_cases hp : p = []
  · rw [if_pos hp]
    exact h
  · rw [if_neg hp]
    have h' := h
    rw [distinctKeys, Bool.and_eq_true] at h'
    obtain ⟨hnod, hL⟩ := h'
    simp only [CTrie.children]
    split
    · next c hget =>
      exact distinctKeysL_iff.mp hL _ (dictGet_mem hget)
    · next hget =>
      split
      · next r hsub =>
        obtain ⟨np, n, hmem, hr⟩ := scanSub_some hsub
        subst hr
        rw [distinctKeys, Bool.and_eq_true]
        constructor
        · rw [nodupKeys_iff]
          simp
        · rw [distinctKeysL_iff]
          intro e he
          have he' : e = (np.drop (lcp p np).length,
              CTrie.node false n.children) := by simpa using he
          subst he'
          rw [distinctKeys_node_children]
          exact distinctKeysL_iff.mp hL _ hmem
      · next hsub =>
        simp [distinctKeys, distinctKeysL, nodupKeys]

/-! ### The compaction invariant is preserved by add and remove -/

theorem compactI_node_children (c : CTrie) (b : Bool) :
    compactI (.node b c.children) = compactI c := by
  cases c
  simp [CTrie.children, compactI]

mutual

theorem addW_compact : ∀ (t : CTrie) (w : Str), compactI t = true →
    compactI (addW t w).2 = true
  | .node term cs, w, h => by
    rw [compactI, Bool.and_eq_true] at h
    obtain ⟨hpair, hL⟩ := h
    rw [addW]
    by_cases hw : w = []
    · rw [if_pos hw]
      cases term <;> simp [compactI, hpair, hL]
    · rw [if_neg hw]
      by_cases hcs : cs.isEmpty = true
      · rw [if_pos hcs]
        simp [compactI, compactL, pairLcpNil, allLcpNil]
      · rw [if_neg hcs]
        split
        · next b cs' hs =>
          rw [compactI, Bool.and_eq_true]
          refine ⟨?_, scanAdd_compact cs w hL b cs' hs⟩
          rw [scanAdd_keys hs]
          exact hpair
        · next hs =>
          split
          · next p c hf =>
            obtain ⟨hmem, hl, hpw, hpeq, hweq, hdn, hkey⟩ := split_facts hs hf
            rw [split_dictSet hs hf, compactI, Bool.and_eq_true]
            have hpmem : p ∈ cs.map Prod.fst := List.mem_map_of_mem Prod.fst hmem
            have hdel := del_keys_lcp_nil (pairLcpNil_iff.mp hpair) hpmem
            constructor
            · rw [pairLcpNil_iff]
              simp only [List.map_append, List.map_cons, List.map_nil]
              rw [List.pairwise_append]
              refine ⟨List.Pairwise.sublist ((dictDel_sublist cs p).map Prod.fst)
                (pairLcpNil_iff.mp hpair), List.pairwise_singleton _ _, ?_⟩
              intro q hq l' hl'
              have hl'' : l' = lcp p w := by simpa using hl'
              subst hl''
              obtain ⟨e, he, rfl⟩ := List.mem_map.mp hq
              have hqp : lcp e.1 p = [] := hdel e he
              rw [hpeq] at hqp
              exact lcp_nil_of_lcp_nil_append hqp hl
            · rw [compactL_iff]
              intro e he
              rcases List.mem_append.mp he with he | he
              · exact compactL_iff.mp hL e ((dictDel_sublist cs p).subset he)
              · have he' : e = (lcp p w,
                    CTrie.node false (dictSet (dictSet [] (p.drop (lcp p w).length) c)
                      (w.drop (lcp p w).length) (CTrie.node true []))) := by
                  simpa using he
                subst he'
                rw [split_middle hs hf]
                simp only [compactI, Bool.and_eq_true]
                have hnb : lcp (p.drop (lcp p w).length) (w.drop (lcp p w).length)
                    = [] := by
                  have h1 := lcp_append_same (lcp p w) (p.drop (lcp p w).length)
                    (w.drop (lcp p w).length)
                  rw [← hpeq, ← hweq] at h1
                  have h2 := congrArg (List.drop (lcp p w).length) h1
                  rw [List.drop_left, List.drop_length] at h2
                  exact h2.symm
                constructor
                · rw [pairLcpNil_iff]
                  simp only [List.map_cons, List.map_nil]
                  rw [List.pairwise_cons]
                  refine ⟨?_, List.pairwise_singleton _ _⟩
                  intro q hq
                  have : q = w.drop (lcp p w).length := by simpa using hq
                  subst this
                  exact hnb
                · rw [compactL_iff]
                  intro e2 he2
                  rcases List.mem_cons.mp he2 with rfl | he2'
                  · exact compactL_iff.mp hL (p, c) hmem
                  · have he2'' : e2 = (w.drop (lcp p w).length, CTrie.node true []) := by
                      simpa using he2'
                    subst he2''
                    simp [compactI, compactL, pairLcpNil, allLcpNil]
          · next hf =>
            have hnone := scanAdd_none hs
            have hfa := findSplit_none hf
            have hset : dictSet cs w (.node true []) = cs ++ [(w, .node true [])] :=
              dictSet_of_not_mem _ (fun e he => (hnone e he).1)
            rw [hset, compactI, Bool.and_eq_true]
            constructor
            · rw [pairLcpNil_iff]
              simp only [List.map_append, List.map_cons, List.map_nil]
              rw [List.pairwise_append]
              refine ⟨pairLcpNil_iff.mp hpair, List.pairwise_singleton _ _, ?_⟩
              intro q hq l' hl'
              have hl'' : l' = w := by simpa using hl'
              subst hl''
              obtain ⟨e, he, rfl⟩ := List.mem_map.mp hq
              exact hfa e he
            · rw [compactL_iff]
              intro e he
              rcases List.mem_append.mp he with he | he
              · exact compactL_iff.mp hL e he
              · have he' : e = (w, CTrie.node true []) := by simpa using he
                subst he'
                simp [compactI, compactL, pairLcpNil, allLcpNil]

theorem scanAdd_compact : ∀ (cs : List (Str × CTrie)) (w : Str),
    compactL cs = true → ∀ (b : Bool) (cs' : List (Str × CTrie)),
    scanAdd cs w = some (b, cs') → compactL cs' = true
  | [], _, _, _, _, h => by simp [scanAdd] at h
  | (p, c) :: rest, w, hL, b, cs', h => by
    rw [compactL, Bool.and_eq_true] at hL
    obtain ⟨hc, hrest⟩ := hL
    rw [scanAdd] at h
    by_cases hp : p = w
    · subst hp
      rw [if_pos rfl] at h
      rcases ht : c.terminal with _ | _ <;> rw [ht] at h <;>
        simp only [if_true, if_false, Bool.false_eq_true, Option.some.injEq,
          Prod.mk.injEq] at h <;> obtain ⟨rfl, rfl⟩ := h
      · rw [compactL, Bool.and_eq_true]
        exact ⟨by rw [compactI_setTerminal]; exact hc, hrest⟩
      · rw [compactL, Bool.and_eq_true]
        exact ⟨hc, hrest⟩
    · rw [if_neg hp] at h
      rcases hcut : cutp p w with _ | tr
      · rw [hcut] at h
        rcases hs2 : scanAdd rest w with _ | ⟨b2, rest'⟩ <;> rw [hs2] at h
        · cases h
        · simp only [Option.some.injEq, Prod.mk.injEq] at h
          obtain ⟨rfl, rfl⟩ := h
          rw [compactL, Bool.and_eq_true]
          exact ⟨hc, scanAdd_compact rest w hrest b2 rest' hs2⟩
      · rw [hcut] at h
        simp only [Option.some.injEq, Prod.mk.injEq] at h
        obtain ⟨rfl, rfl⟩ := h
        rw [compactL, Bool.and_eq_true]
        exact ⟨addW_compact c tr hc, hrest⟩

end

mutual

theorem removeW_compact : ∀ (t : CTrie) (w : Str), compactI t = true →
    compactI (removeW t w).2 = true
  | .node term cs, w, h => by
    rw [compactI, Bool.and_eq_true] at h
    obtain ⟨hpair, hL⟩ := h
    rw [removeW]
    by_cases hw : w = []
    · rw [if_pos hw]
      rw [compactI, Bool.and_eq_true]
      exact ⟨hpair, hL⟩
    · rw [if_neg hw]
      split
      · next b cs' hs =>
        rw [compactI, Bool.and_eq_true]
        refine ⟨?_, scanRemove_compact cs w hL b cs' hs⟩
        rw [pairLcpNil_iff] at hpair ⊢
        exact List.Pairwise.sublist (scanRemove_keys hs) hpair
      · next hs =>
        rw [compactI, Bool.and_eq_true]
        exact ⟨hpair, hL⟩

theorem scanRemove_compact : ∀ (cs : List (Str × CTrie)) (w : Str),
    compactL cs = true → ∀ (b : Bool) (cs' : List (Str × CTrie)),
    scanRemove cs w = some (b, cs') → compactL cs' = true
  | [], _, _, _, _, h => by simp [scanRemove] at h
  | (p, c) :: rest, w, hL, b, cs', h => by
    rw [compactL, Bool.and_eq_true] at hL
    obtain ⟨hc, hrest⟩ := hL
    rw [scanRemove] at h
    rcases hcut : cutp p w with _ | tr
    · rw [hcut] at h
      rcases hs2 : scanRemove rest w with _ | ⟨b2, rest'⟩ <;> rw [hs2] at h
      · cases h
      · simp only [Option.some.injEq, Prod.mk.injEq] at h
        obtain ⟨rfl, rfl⟩ := h
        rw [compactL, Bool.and_eq_true]
        exact ⟨hc, scanRemove_compact rest w hrest b2 rest' hs2⟩
    · rw [hcut] at h
      simp only [Option.some.injEq, Prod.mk.injEq] at h
      obtain ⟨rfl, rfl⟩ := h
      by_cases he : is_empty (removeW c tr).2 = true
      · rw [if_pos he]
        exact hrest
      · rw [if_neg he]
        rw [compactL, Bool.and_eq_true]
        exact ⟨removeW_compact c tr hc, hrest⟩

end

/-! ### The pruning invariant is preserved by add and remove -/

mutual

theorem addW_pruned : ∀ (t : CTrie) (w : Str), prunedI t = true →
    prunedI (addW t w).2 = true
  | .node term cs, w, h => by
    rw [prunedI] at h
    rw [addW]
    by_cases hw : w = []
    · rw [if_pos hw]
      cases term <;> simp [prunedI, h]
    · rw [if_neg hw]
      by_cases hcs : cs.isEmpty = true
      · rw [if_pos hcs]
        simp [prunedI, prunedL, is_empty]
      · rw [if_neg hcs]
        split
        · next b cs' hs =>
          rw [prunedI]
          exact scanAdd_pruned cs w h b cs' hs
        · next hs =>
          split
          · next p c hf =>
            obtain ⟨hmem, hl, hpw, hpeq, hweq, hdn, hkey⟩ := split_facts hs hf
            rw [split_dictSet hs hf, prunedI, prunedL_iff]
            intro e he
            rcases List.mem_append.mp he with he | he
            · exact prunedL_iff.mp h e ((dictDel_sublist cs p).subset he)
            · have he' : e = (lcp p w,
                  CTrie.node false (dictSet (dictSet [] (p.drop (lcp p w).length) c)
                    (w.drop (lcp p w).length) (CTrie.node true []))) := by
                simpa using he
              subst he'
              rw [split_middle hs hf]
              obtain ⟨hcne, hcp⟩ := prunedL_iff.mp h (p, c) hmem
              constructor
              · simp [is_empty]
              · rw [prunedI, prunedL_iff]
                intro e2 he2
                rcases List.mem_cons.mp he2 with rfl | he2'
                · exact ⟨hcne, hcp⟩
                · have he2'' : e2 = (w.drop (lcp p w).length, CTrie.node true []) := by
                    simpa using he2'
                  subst he2''
                  simp [is_empty, prunedI, prunedL]
          · next hf =>
            have hnone := scanAdd_none hs
            have hset : dictSet cs w (.node true []) = cs ++ [(w, .node true [])] :=
              dictSet_of_not_mem _ (fun e he => (hnone e he).1)
            rw [hset, prunedI, prunedL_iff]
            intro e he
            rcases List.mem_append.mp he with he | he
            · exact prunedL_iff.mp h e he
            · have he' : e = (w, CTrie.node true []) := by simpa using he
              subst he'
              simp [is_empty, prunedI, prunedL]

theorem scanAdd_pruned : ∀ (cs : List (Str × CTrie)) (w : Str),
    prunedL cs = true → ∀ (b : Bool) (cs' : List (Str × CTrie)),
    scanAdd cs w = some (b, cs') → prunedL cs' = true
  | [], _, _, _, _, h => by simp [scanAdd] at h
  | (p, c) :: rest, w, hL, b, cs', h => by
    rw [prunedL, Bool.and_eq_true, Bool.and_eq_true] at hL
    obtain ⟨⟨hcne, hc⟩, hrest⟩ := hL
    rw [scanAdd] at h
    by_cases hp : p = w
    · subst hp
      rw [if_pos rfl] at h
      rcases ht : c.terminal with _ | _ <;> rw [ht] at h <;>
        simp only [if_true, if_false, Bool.false_eq_true, Option.some.injEq,
          Prod.mk.injEq] at h <;> obtain ⟨rfl, rfl⟩ := h
      · rw [prunedL, Bool.and_eq_true, Bool.and_eq_true]
        refine ⟨⟨?_, by rw [prunedI_setTerminal]; exact hc⟩, hrest⟩
        rw [is_empty_setTerminal_true]
        simp
      · rw [prunedL, Bool.and_eq_true, Bool.and_eq_true]
        exact ⟨⟨hcne, hc⟩, hrest⟩
    · rw [if_neg hp] at h
      rcases hcut : cutp p w with _ | tr
      · rw [hcut] at h
        rcases hs2 : scanAdd rest w with _ | ⟨b2, rest'⟩ <;> rw [hs2] at h
        · cases h
        · simp only [Option.some.injEq, Prod.mk.injEq] at h
          obtain ⟨rfl, rfl⟩ := h
          rw [prunedL, Bool.and_eq_true, Bool.and_eq_true]
          exact ⟨⟨hcne, hc⟩, scanAdd_pruned rest w hrest b2 rest' hs2⟩
      · rw [hcut] at h
        simp only [Option.some.injEq, Prod.mk.injEq] at h
        obtain ⟨rfl, rfl⟩ := h
        rw [prunedL, Bool.and_eq_true, Bool.and_eq_true]
        refine ⟨⟨?_, addW_pruned c tr hc⟩, hrest⟩
        rw [addW_not_empty]
        simp

end

mutual

theorem removeW_pruned : ∀ (t : CTrie) (w : Str), prunedI t = true →
    prunedI (removeW t w).2 = true
  | .node term cs, w, h => by
    rw [prunedI] at h
    rw [removeW]
    by_cases hw : w = []
    · rw [if_pos hw]
      rw [prunedI]
      exact h
    · rw [if_neg hw]
      split
      · next b cs' hs =>
        rw [prunedI]
        exact scanRemove_pruned cs w h b cs' hs
      · next hs =>
        rw [prunedI]
        exact h

theorem scanRemove_pruned : ∀ (cs : List (Str × CTrie)) (w : Str),
    prunedL cs = true → ∀ (b : Bool) (cs' : List (Str × CTrie)),
    scanRemove cs w = some (b, cs') → prunedL cs' = true
  | [], _, _, _, _, h => by simp [scanRemove] at h
  | (p, c) :: rest, w, hL, b, cs', h => by
    rw [prunedL, Bool.and_eq_true, Bool.and_eq_true] at hL
    obtain ⟨⟨hcne, hc⟩, hrest⟩ := hL
    rw [scanRemove] at h
    rcases hcut : cutp p w with _ | tr
    · rw [hcut] at h
      rcases hs2 : scanRemove rest w with _ | ⟨b2, rest'⟩ <;> rw [hs2] at h
      · cases h
      · simp only [Option.some.injEq, Prod.mk.injEq] at h
        obtain ⟨rfl, rfl⟩ := h
        rw [prunedL, Bool.and_eq_true, Bool.and_eq_true]
        exact ⟨⟨hcne, hc⟩, scanRemove_pruned rest w hrest b2 rest' hs2⟩
    · rw [hcut] at h
      simp only [Option.some.injEq, Prod.mk.injEq] at h
      obtain ⟨rfl, rfl⟩ := h
      by_cases he : is_empty (removeW c tr).2 = true
      · rw [if_pos he]
        exact hrest
      · rw [if_neg he]
        rw [prunedL, Bool.and_eq_true, Bool.and_eq_true]
        refine ⟨⟨?_, removeW_pruned c tr hc⟩, hrest⟩
        simp [Bool.not_eq_true] at he
        simp [he]

end

/-! ### Values and length under removal of an absent word -/

theorem is_empty_iff {c : CTrie} : is_empty c = true ↔ c = .node false [] := by
  obtain ⟨term, cs⟩ := c
  cases term <;> cases cs <;> simp [is_empty]

theorem values_node (term : Bool) (cs : List (Str × CTrie)) :
    values (.node term cs) = (if term then [([] : Str)] else []) ++ valuesL cs := by
  rw [values]
  by_cases hemp : is_empty (.node term cs) = true
  · have h := is_empty_iff.mp hemp
    have h1 : term = false := by
      cases h
      rfl
    have h2 : cs = [] := by
      cases h
      rfl
    subst h1
    subst h2
    simp [valuesL]
  · rw [if_neg hemp]

theorem values_of_is_empty {c : CTrie} (h : is_empty c = true) : values c = [] := by
  rw [is_empty_iff.mp h]
  simp [values_node, valuesL]

theorem lengthW_of_is_empty {c : CTrie} (h : is_empty c = true) : lengthW c = 0 := by
  rw [is_empty_iff.mp h]
  simp [lengthW, lengthL]

mutual

theorem removeW_absent : ∀ (t : CTrie) (w : Str), containsW t w = false →
    values (removeW t w).2 = values t ∧ lengthW (removeW t w).2 = lengthW t
  | .node term cs, w, h => by
    rw [containsW, Bool.or_eq_false_iff] at h
    obtain ⟨hterm, hL⟩ := h
    rw [removeW]
    by_cases hw : w = []
    · rw [if_pos hw]
      subst hw
      simp only [if_pos rfl] at hterm
      subst hterm
      exact ⟨rfl, rfl⟩
    · rw [if_neg hw]
      split
      · next b cs' hs =>
        obtain ⟨hv, hlen⟩ := scanRemove_absent cs w hL b cs' hs
        rw [values_node, values_node, hv, lengthW, lengthW, hlen]
        exact ⟨rfl, rfl⟩
      · next hs =>
        exact ⟨rfl, rfl⟩

theorem scanRemove_absent : ∀ (cs : List (Str × CTrie)) (w : Str),
    containsL cs w = false → ∀ (b : Bool) (cs' : List (Str × CTrie)),
    scanRemove cs w = some (b, cs') →
    valuesL cs' = valuesL cs ∧ lengthL cs' = lengthL cs
  | [], _, _, _, _, h => by simp [scanRemove] at h
  | (p, c) :: rest, w, hL, b, cs', h => by
    rw [containsL, Bool.or_eq_false_iff] at hL
    obtain ⟨hhit, hrest⟩ := hL
    rw [scanRemove] at h
    rcases hcut : cutp p w with _ | tr
    · rw [hcut] at h
      rcases hs2 : scanRemove rest w with _ | ⟨b2, rest'⟩ <;> rw [hs2] at h
      · cases h
      · simp only [Option.some.injEq, Prod.mk.injEq] at h
        obtain ⟨rfl, rfl⟩ := h
        obtain ⟨hv, hlen⟩ := scanRemove_absent rest w hrest b2 rest' hs2
        rw [valuesL, valuesL, hv, lengthL, lengthL, hlen]
        exact ⟨rfl, rfl⟩
    · rw [hcut] at hhit
      rw [hcut] at h
      simp only [Option.some.injEq, Prod.mk.injEq] at h
      obtain ⟨rfl, rfl⟩ := h
      obtain ⟨hv, hlen⟩ := removeW_absent c tr hhit
      by_cases he : is_empty (removeW c tr).2 = true
      · rw [if_pos he]
        have hvc : values c = [] := by
          rw [← hv]
          exact values_of_is_empty he
        have hlc : lengthW c = 0 := by
          rw [← hlen]
          exact lengthW_of_is_empty he
        rw [valuesL, lengthL, hvc, hlc]
        simp
      · rw [if_neg he]
        rw [valuesL, valuesL, hv, lengthL, lengthL, hlen]
        exact ⟨rfl, rfl⟩

end

/-! ### Membership and enumeration agree -/

mutual

theorem containsW_iff_mem_values : ∀ (t : CTrie) (v : Str),
    containsW t v = true ↔ v ∈ values t
  | .node term cs, v => by
    rw [containsW, values_node, Bool.or_eq_true, List.mem_append]
    apply or_congr
    · by_cases hv : v = []
      · subst hv
        cases term <;> simp
      · cases term <;> simp [hv]
    · exact containsL_iff_mem_valuesL cs v

theorem containsL_iff_mem_valuesL : ∀ (cs : List (Str × CTrie)) (v : Str),
    containsL cs v = true ↔ v ∈ valuesL cs
  | [], v => by simp [containsL, valuesL]
  | (p, c) :: rest, v => by
    rw [containsL, valuesL, Bool.or_eq_true, List.mem_append]
    apply or_congr
    · constructor
      · intro h
        rcases hcut : cutp p v with _ | tr
        · rw [hcut] at h
          cases h
        · rw [hcut] at h
          rw [List.mem_map]
          exact ⟨tr, (containsW_iff_mem_values c tr).mp h, (cutp_eq_some.mp hcut).symm⟩
      · intro h
        obtain ⟨tr, htr, htreq⟩ := List.mem_map.mp h
        have hcut : cutp p v = some tr := cutp_eq_some.mpr htreq.symm
        rw [hcut]
        exact (containsW_iff_mem_values c tr).mpr htr
    · exact containsL_iff_mem_valuesL rest v

end

theorem all_values_contains {t u : CTrie} :
    ((values t).all fun w => containsW u w) = true ↔
      (∀ v, containsW t v = true → containsW u v = true) := by
  rw [List.all_eq_true]
  constructor
  · intro h v hv
    exact h v ((containsW_iff_mem_values t v).mp hv)
  · intro h v hv
    exact h v ((containsW_iff_mem_values t v).mpr hv)

theorem eqW_iff_same_words {t u : CTrie} :
    eqW t u = true ↔ ∀ v, containsW t v = containsW u v := by
  rw [eqW, Bool.and_eq_true, all_values_contains, all_values_contains]
  constructor
  · intro h v
    obtain ⟨h1, h2⟩ := h
    rcases hc : containsW t v with _ | _
    · rcases hc2 : containsW u v with _ | _
      · rfl
      · exact hc.symm.trans (h2 v hc2)
    · exact (h1 v hc).symm
  · intro h
    constructor
    · intro v hv
      rw [← h v]
      exact hv
    · intro v hv
      rw [h v]
      exact hv

/-! ### Insertion only affects the membership of the inserted word -/

/-- The contribution of a single child entry to `__contains__`. -/
def entryHit (e : Str × CTrie) (v : Str) : Bool :=
  match cutp e.1 v with
  | some tr => containsW e.2 tr
  | none => false

theorem containsL_cons (e : Str × CTrie) (rest : List (Str × CTrie)) (v : Str) :
    containsL (e :: rest) v = (entryHit e v || containsL rest v) := by
  obtain ⟨p, c⟩ := e
  rw [containsL, entryHit]

theorem containsL_append (xs ys : List (Str × CTrie)) (v : Str) :
    containsL (xs ++ ys) v = (containsL xs v || containsL ys v) := by
  induction xs with
  | nil => simp [containsL]
  | cons e rest ih =>
    rw [List.cons_append, containsL_cons, containsL_cons, ih, Bool.or_assoc]

theorem cutp_append_left (a b v : Str) : cutp (a ++ b) (a ++ v) = cutp b v := by
  induction a with
  | nil => simp
  | cons x a ih => simpa [cutp] using ih

theorem containsW_setTerminal (c : CTrie) (b : Bool) {tr : Str} (h : tr ≠ []) :
    containsW (c.setTerminal b) tr = containsW c tr := by
  obtain ⟨t0, cs0⟩ := c
  simp [CTrie.setTerminal, containsW, h]

theorem entryHit_new_leaf {w v : Str} (hvw : v ≠ w) :
    entryHit (w, .node true []) v = false := by
  rw [entryHit]
  rcases hcut : cutp w v with _ | tr
  · rfl
  · have hv := cutp_eq_some.mp hcut
    cases tr with
    | nil => exact absurd (by simpa using hv) hvw
    | cons a tl => simp [containsW, containsL]

theorem containsL_del {cs : List (Str × CTrie)} {w p : Str} {c : CTrie}
    (hf : findSplit cs w = some (p, c)) (v : Str) :
    containsL cs v = (entryHit (p, c) v || containsL (dictDel cs p) v) := by
  induction cs with
  | nil => simp [findSplit] at hf
  | cons e rest ih =>
    obtain ⟨q, d⟩ := e
    rw [findSplit] at hf
    by_cases hl : lcp q w = []
    · simp only [hl, ne_eq, not_true_eq_false, if_false] at hf
      have hqp : q ≠ p := by
        intro hqp
        obtain ⟨_, hlp⟩ := findSplit_some hf
        rw [hqp] at hl
        exact hlp hl
      rw [containsL_cons, ih hf, dictDel, if_neg hqp, containsL_cons]
      rw [Bool.or_left_comm]
    · simp only [hl, ne_eq, not_false_eq_true, if_true, Option.some.injEq] at hf
      obtain ⟨rfl, rfl⟩ := Prod.mk.injEq .. ▸ hf
      rw [containsL_cons, dictDel, if_pos rfl]

theorem entryHit_split {cs : List (Str × CTrie)} {w p : Str} {c : CTrie}
    (hs : scanAdd cs w = none) (hf : findSplit cs w = some (p, c))
    (v : Str) (hvw : v ≠ w) :
    entryHit (lcp p w, .node false (dictSet (dictSet [] (p.drop (lcp p w).length) c)
        (w.drop (lcp p w).length) (.node true []))) v = entryHit (p, c) v := by
  obtain ⟨hmem, hl, hpw, hpeq, hweq, hdn, hkey⟩ := split_facts hs hf
  rw [split_middle hs hf, entryHit, entryHit]
  rcases hcut : cutp (lcp p w) v with _ | y
  · rcases hcut2 : cutp p v with _ | z
    · rfl
    · have hv := cutp_eq_some.mp hcut2
      rw [hpeq, List.append_assoc] at hv
      rw [cutp_eq_none] at hcut
      exact absurd hv (hcut _)
  · have hv := cutp_eq_some.mp hcut
    subst hv
    have hp2 : cutp p (lcp p w ++ y) = cutp (p.drop (lcp p w).length) y := by
      have hc := cutp_append_left (lcp p w) (p.drop (lcp p w).length) y
      rw [lcp_recover_left p w] at hc
      exact hc
    have hleaf : entryHit (w.drop (lcp p w).length, CTrie.node true []) y = false := by
      apply entryHit_new_leaf
      intro hynb
      apply hvw
      rw [hynb, ← hweq]
    show containsW (.node false [(p.drop (lcp p w).length, c),
        (w.drop (lcp p w).length, .node true [])]) y = _
    rw [hp2, containsW, containsL_cons, containsL_cons, hleaf, containsL]
    rcases hcut3 : cutp (p.drop (lcp p w).length) y with _ | z <;>
      simp [entryHit, hcut3]

mutual

theorem containsW_addW : ∀ (t : CTrie) (w v : Str), v ≠ w →
    containsW (addW t w).2 v = containsW t v
  | .node term cs, w, v, hvw => by
    rw [addW]
    by_cases hw : w = []
    · rw [if_pos hw]
      subst hw
      cases term
      · show containsW (.node true cs) v = _
        rw [containsW, containsW]
        simp [hvw]
      · rfl
    · rw [if_neg hw]
      by_cases hcs : cs.isEmpty = true
      · rw [if_pos hcs]
        have hnil : cs = [] := by simpa [List.isEmpty_iff] using hcs
        subst hnil
        show containsW (.node term [(w, .node true [])]) v = _
        rw [containsW, containsW, containsL_cons, entryHit_new_leaf hvw]
        simp [containsL]
      · rw [if_neg hcs]
        split
        · next b cs' hs =>
          rw [containsW, containsW, containsL_scanAdd cs w v hvw b cs' hs]
        · next hs =>
          split
          · next p c hf =>
            rw [containsW, containsW, split_dictSet hs hf, containsL_append,
              containsL_del hf v, containsL_cons, entryHit_split hs hf v hvw,
              containsL]
            rcases h1 : entryHit (p, c) v <;>
              rcases h2 : containsL (dictDel cs p) v <;> simp
          · next hf =>
            have hnone := scanAdd_none hs
            have hset : dictSet cs w (.node true []) = cs ++ [(w, .node true [])] :=
              dictSet_of_not_mem _ (fun e he => (hnone e he).1)
            rw [containsW, containsW, hset, containsL_append, containsL_cons,
              entryHit_new_leaf hvw, containsL]
            simp

theorem containsL_scanAdd : ∀ (cs : List (Str × CTrie)) (w v : Str), v ≠ w →
    ∀ (b : Bool) (cs' : List (Str × CTrie)),
    scanAdd cs w = some (b, cs') → containsL cs' v = containsL cs v
  | [], _, _, _, _, _, h => by simp [scanAdd] at h
  | (p, c) :: rest, w, v, hvw, b, cs', h => by
    rw [scanAdd] at h
    by_cases hp : p = w
    · subst hp
      rw [if_pos rfl] at h
      rcases ht : c.terminal with _ | _ <;> rw [ht] at h <;>
        simp only [if_true, if_false, Bool.false_eq_true, Option.some.injEq,
          Prod.mk.injEq] at h <;> obtain ⟨rfl, rfl⟩ := h
      · rw [containsL_cons, containsL_cons]
        have hhit : entryHit (p, c.setTerminal true) v = entryHit (p, c) v := by
          rw [entryHit, entryHit]
          rcases hcut : cutp p v with _ | tr
          · rfl
          · have htr : tr ≠ [] := by
              intro hnil
              apply hvw
              have hv := cutp_eq_some.mp hcut
              rw [hnil] at hv
              simpa using hv
            exact containsW_setTerminal c true htr
        rw [hhit]
      · rfl
    · rw [if_neg hp] at h
      rcases hcut : cutp p w with _ | tr
      · rw [hcut] at h
        rcases hs2 : scanAdd rest w with _ | ⟨b2, rest'⟩ <;> rw [hs2] at h
        · cases h
        · simp only [Option.some.injEq, Prod.mk.injEq] at h
          obtain ⟨rfl, rfl⟩ := h
          rw [containsL_cons, containsL_cons,
            containsL_scanAdd rest w v hvw b2 rest' hs2]
      · rw [hcut] at h
        simp only [Option.some.injEq, Prod.mk.injEq] at h
        obtain ⟨rfl, rfl⟩ := h
        rw [containsL_cons, containsL_cons]
        have hhit : entryHit (p, (addW c tr).2) v = entryHit (p, c) v := by
          rw [entryHit, entryHit]
          rcases hcv : cutp p v with _ | y
          · rfl
          · have hy : y ≠ tr := by
              intro hyeq
              apply hvw
              have hv := cutp_eq_some.mp hcv
              have hw2 := cutp_eq_some.mp hcut
              rw [hv, hw2, hyeq]
            exact containsW_addW c tr y hy
        rw [hhit]

end

/-! ### Flat fan-out tries -/

theorem scanAdd_eq_none {cs : List (Str × CTrie)} {w : Str}
    (h : ∀ e ∈ cs, e.1 ≠ w ∧ cutp e.1 w = none) : scanAdd cs w = none := by
  induction cs with
  | nil => rw [scanAdd]
  | cons e rest ih =>
    obtain ⟨p, c⟩ := e
    obtain ⟨hp, hc⟩ := h (p, c) (List.mem_cons_self _ _)
    rw [scanAdd, if_neg hp, hc, ih (fun e he => h e (List.mem_cons_of_mem _ he))]

theorem findSplit_eq_none {cs : List (Str × CTrie)} {w : Str}
    (h : ∀ e ∈ cs, lcp e.1 w = []) : findSplit cs w = none := by
  induction cs with
  | nil => rw [findSplit]
  | cons e rest ih =>
    obtain ⟨p, c⟩ := e
    have hp := h (p, c) (List.mem_cons_self _ _)
    rw [findSplit, if_neg (by simp [hp]),
      ih (fun e he => h e (List.mem_cons_of_mem _ he))]

theorem cutp_none_of_head_ne {u w : Str} (hu : u ≠ [])
    (hne : u.head? ≠ w.head?) : cutp u w = none := by
  cases u with
  | nil => exact absurd rfl hu
  | cons a u' =>
    cases w with
    | nil => rw [cutp]
    | cons b w' =>
      have hab : a ≠ b := by
        intro hab
        apply hne
        rw [hab]
        rfl
      rw [cutp, if_neg hab]

theorem lcp_nil_of_head_ne {u w : Str} (hne : u.head? ≠ w.head?) :
    lcp u w = [] := by
  by_contra hl
  obtain ⟨_, _, hh⟩ := lcp_ne_nil_iff.mp hl
  exact hne hh

theorem ne_of_head_ne {u w : Str} (hne : u.head? ≠ w.head?) : u ≠ w := by
  intro heq
  apply hne
  rw [heq]

theorem addW_flat (us : List Str) (w : Str) (hw : w ≠ [])
    (hus : ∀ u ∈ us, u ≠ [] ∧ u.head? ≠ w.head?) :
    addW (.node false (us.map (fun u => (u, .node true [])))) w
      = (true, .node false ((us ++ [w]).map (fun u => (u, .node true [])))) := by
  rw [addW, if_neg hw]
  by_cases h0 : us = []
  · subst h0
    simp
  · have hcs : (us.map (fun u => ((u : Str), CTrie.node true []))).isEmpty ≠ true := by
      simp [List.isEmpty_iff, h0]
    rw [if_neg hcs]
    have hmem : ∀ e ∈ us.map (fun u => ((u : Str), CTrie.node true [])),
        e.1 ≠ [] ∧ e.1.head? ≠ w.head? := by
      intro e he
      obtain ⟨u, hu, rfl⟩ := List.mem_map.mp he
      exact hus u hu
    have h1 : scanAdd (us.map (fun u => ((u : Str), CTrie.node true []))) w = none := by
      apply scanAdd_eq_none
      intro e he
      obtain ⟨hne, hh⟩ := hmem e he
      exact ⟨ne_of_head_ne hh, cutp_none_of_head_ne hne hh⟩
    have h2 : findSplit (us.map (fun u => ((u : Str), CTrie.node true []))) w = none := by
      apply findSplit_eq_none
      intro e he
      exact lcp_nil_of_head_ne (hmem e he).2
    rw [h1, h2]
    have hset := @dictSet_of_not_mem (us.map (fun u => ((u : Str), CTrie.node true [])))
      w (CTrie.node true []) (fun e he => ne_of_head_ne (hmem e he).2)
    rw [hset]
    simp

theorem addAll_flat : ∀ (ws us : List Str),
    (∀ u ∈ us ++ ws, u ≠ []) →
    (us ++ ws).Pairwise (fun a b => a.head? ≠ b.head?) →
    List.foldl (fun t w => (addW t w).2)
      (.node false (us.map (fun u => (u, .node true [])))) ws
      = .node false ((us ++ ws).map (fun u => (u, .node true [])))
  | [], us, hne, hpair => by simp
  | w :: ws, us, hne, hpair => by
    rw [List.foldl_cons]
    have hw : w ≠ [] := hne w (by simp)
    have hstep := addW_flat us w hw (by
      intro u hu
      refine ⟨hne u (by simp [hu]), ?_⟩
      rw [List.pairwise_append] at hpair
      exact hpair.2.2 u hu w (by simp))
    rw [hstep]
    have happ : (us ++ [w]) ++ ws = us ++ (w :: ws) := by simp
    have hrec := addAll_flat ws (us ++ [w])
      (by rw [happ]; exact hne) (by rw [happ]; exact hpair)
    rw [hrec, happ]

theorem heightL_leaves (us : List Str) :
    heightL (us.map (fun u => (u, .node true []))) = 0 := by
  induction us with
  | nil => rw [List.map_nil, heightL]
  | cons u us ih =>
    rw [List.map_cons, heightL, ih, heightW]
    simp

/-! ### The claims -/

/-- Claim C1: the spec states that `subtree(p)` returns a trie whose word set
is exactly the set of suffixes of the stored words that start with `p`.  The
code contradicts this (and its own docstring): in the trie holding exactly
the word "ab", the stored word "ab" starts with "a", so `subtree("a")`
should denote the word set containing just "b", but the trie the code
returns has an empty word set (the synthetic node is built without copying
the matched child's terminal flag).  This theorem evaluates the code at
that failing input. -/
theorem claim1_subtree_failing :
    containsW (addW emptyT (s "ab")).2 (s "a" ++ s "b") = true ∧
    values (subtreeW (addW emptyT (s "ab")).2 (s "a")) = [] := by decide

/-- Claim C2: for every word `w`, starting from the empty trie, `add(w)`
returns true, then `contains(w)` holds, `len` is 1, a subsequent
`remove(w)` returns true, and the result is empty again. -/
theorem claim2_add_contains_remove (w : Str) :
    (addW emptyT w).1 = true ∧
    containsW (addW emptyT w).2 w = true ∧
    lengthW (addW emptyT w).2 = 1 ∧
    (removeW (addW emptyT w).2 w).1 = true ∧
    is_empty (removeW (addW emptyT w).2 w).2 = true := by
  cases w with
  | nil => decide
  | cons a as =>
    have hw : (a :: as : Str) ≠ [] := by simp
    have hadd : addW emptyT (a :: as)
        = (true, .node false [(a :: as, .node true [])]) := rfl
    rw [hadd]
    have hscan : scanRemove [((a :: as : Str), CTrie.node true [])] (a :: as)
        = some (true, []) := by
      rw [scanRemove, cutp_self]
      rfl
    refine ⟨rfl, ?_, ?_, ?_, ?_⟩
    · rw [containsW, containsL_cons, entryHit, cutp_self]
      simp [containsW, containsL]
    · rfl
    · rw [removeW, if_neg hw, hscan]
    · rw [removeW, if_neg hw, hscan]
      rfl

/-- Claim C3, counterexample: the claim states that in every trie reachable
by add, remove and subtree operations every child label is a non-empty
string.  Adding "abc" and then "ab" to the empty trie splits the label
"abc" against the inserted word "ab", whose remainder past the common
leading part "ab" is empty, so the intermediate node receives a child
labelled by the empty string; the resulting trie is reachable yet has an
empty edge label. -/
theorem claim3_counterexample :
    ReachS (addW (addW emptyT (s "abc")).2 (s "ab")).2 ∧
    hasEmptyEdge (addW (addW emptyT (s "abc")).2 (s "ab")).2 = true :=
  ⟨ReachS.addR _ _ (ReachS.addR _ _ ReachS.init), by decide⟩

/-- Claim C3, amended: in every trie reachable from the empty trie by add,
remove and subtree operations, every node's children map has pairwise
distinct keys; the keys need not be non-empty (inserting a strict leading
part of an existing label creates an edge labelled by the empty string). -/
theorem claim3_distinct_keys (t : CTrie) (h : ReachS t) :
    distinctKeys t = true := by
  induction h with
  | init => rfl
  | addR t w _ ih => exact addW_distinct t w ih
  | removeR t w _ ih => exact removeW_distinct t w ih
  | subR t p _ ih => exact subtreeW_distinct t p ih

theorem claim3_distinct_keys_witness :
    ReachS (subtreeW (addW emptyT (s "ab")).2 (s "a")) ∧
    distinctKeys (subtreeW (addW emptyT (s "ab")).2 (s "a")) = true :=
  ⟨ReachS.subR _ _ (ReachS.addR _ _ ReachS.init),
   claim3_distinct_keys _ (ReachS.subR _ _ (ReachS.addR _ _ ReachS.init))⟩

/-- Claim C4: in every trie reachable from the empty trie by any sequence of
add and remove operations, at every node no two distinct child edge labels
share a non-empty common leading part (the compaction invariant),
maintained by insertion via splitting and never violated by deletion. -/
theorem claim4_compaction_invariant (t : CTrie) (h : Reach t) :
    compactI t = true := by
  induction h with
  | init => rfl
  | addR t w _ ih => exact addW_compact t w ih
  | removeR t w _ ih => exact removeW_compact t w ih

theorem claim4_compaction_invariant_witness :
    Reach (removeW (addW (addW emptyT (s "abc")).2 (s "abd")).2 (s "abd")).2 ∧
    compactI (removeW (addW (addW emptyT (s "abc")).2 (s "abd")).2 (s "abd")).2
      = true :=
  ⟨Reach.removeR _ _ (Reach.addR _ _ (Reach.addR _ _ Reach.init)),
   claim4_compaction_invariant _
     (Reach.removeR _ _ (Reach.addR _ _ (Reach.addR _ _ Reach.init)))⟩

/-- Claim C5: for every trie, removing the empty string clears the node's
terminal flag and returns true, even when the flag was already clear; the
children are untouched. -/
theorem claim5_remove_empty_string (t : CTrie) :
    (removeW t []).1 = true ∧ (removeW t []).2 = .node false t.children := by
  obtain ⟨term, cs⟩ := t
  exact ⟨rfl, rfl⟩

/-- Claim C6, counterexample: the claim states that removing a word the trie
does not contain returns false.  In the trie holding "ac" and "ad", the word
"a" is not contained, yet `remove("a")` reaches the intermediate node
spelled by "a", unconditionally clears its (already clear) terminal flag and
reports success. -/
theorem claim6_counterexample :
    containsW (addAll emptyT [s "ac", s "ad"]) (s "a") = false ∧
    (removeW (addAll emptyT [s "ac", s "ad"]) (s "a")).1 = true := by decide

/-- Claim C6, amended: for every word `w` and every trie not containing `w`,
`remove(w)` leaves the stored word set unchanged: the sequence of values and
the length are identical before and after (the return value, however, may
be true when `w` spells an existing non-terminal node). -/
theorem claim6_remove_absent (t : CTrie) (w : Str)
    (h : containsW t w = false) :
    values (removeW t w).2 = values t ∧ lengthW (removeW t w).2 = lengthW t :=
  removeW_absent t w h

theorem claim6_remove_absent_witness :
    containsW (addAll emptyT [s "ac", s "ad"]) (s "ab") = false ∧
    values (removeW (addAll emptyT [s "ac", s "ad"]) (s "ab")).2
      = values (addAll emptyT [s "ac", s "ad"]) ∧
    lengthW (removeW (addAll emptyT [s "ac", s "ad"]) (s "ab")).2
      = lengthW (addAll emptyT [s "ac", s "ad"]) :=
  ⟨by decide, (claim6_remove_absent _ _ (by decide)).1,
   (claim6_remove_absent _ _ (by decide)).2⟩

/-- Claim C7, counterexample: the claim states that `height()` returns 0 for
a trie built from words that pairwise diverge at their first character.  The
code (and its own docstring, and the repository's tests) give such a trie
height 1: with "a" and "b" added, the root has children, so the height is
one more than the maximal child height. -/
theorem claim7_counterexample :
    heightW (addAll emptyT [s "a", s "b"]) ≠ 0 ∧
    heightW (addAll emptyT [s "a", s "b"]) = 1 := by decide

/-- Claim C7, amended: `height()` returns 0 for an empty trie, returns 1
(not 0) for any trie built by adding a non-empty list of non-empty words
that pairwise diverge at their first character, and adding the eight words
"aaa", "aab", "aba", "abb", "baa", "bab", "bba", "bbb" to an empty trie
yields height 3. -/
theorem claim7_height (ws : List Str) :
    heightW emptyT = 0 ∧
    (ws ≠ [] → (∀ w ∈ ws, w ≠ []) →
      ws.Pairwise (fun a b => a.head? ≠ b.head?) →
      heightW (addAll emptyT ws) = 1) ∧
    heightW (addAll emptyT [s "aaa", s "aab", s "aba", s "abb",
      s "baa", s "bab", s "bba", s "bbb"]) = 3 := by
  refine ⟨rfl, ?_, by decide⟩
  intro hne hnil hpair
  have h := addAll_flat ws [] (by simpa using hnil) (by simpa using hpair)
  rw [addAll]
  have hemp : emptyT
      = CTrie.node false (([] : List Str).map (fun u => (u, .node true []))) := rfl
  rw [hemp, h]
  simp only [List.nil_append]
  rw [heightW]
  rw [if_neg (by simp [List.isEmpty_iff, hne])]
  rw [heightL_leaves]

theorem claim7_height_witness :
    ([s "a", s "b"] : List Str) ≠ [] ∧
    heightW (addAll emptyT [s "a", s "b"]) = 1 :=
  ⟨by decide,
   (claim7_height [s "a", s "b"]).2.1 (by decide) (by decide)
     (by constructor
         · intro b hb
           have hb' : b = s "b" := by simpa using hb
           subst hb'
           decide
         · constructor
           · intro b hb
             cases hb
           · constructor)⟩

/-- Claim C8: equality of tries is extensional — two tries compare equal
exactly when they contain the same words, regardless of internal shape;
it is reflexive and symmetric, and the trie built by adding "abcdef" and
"abcxyz" and then removing "abcxyz" equals the trie built directly from
"abcdef". -/
theorem claim8_extensional_equality :
    (∀ t u, eqW t u = true ↔ ∀ v, containsW t v = containsW u v) ∧
    (∀ t, eqW t t = true) ∧
    (∀ t u, eqW t u = eqW u t) ∧
    eqW (removeW (addAll emptyT [s "abcdef", s "abcxyz"]) (s "abcxyz")).2
      (addAll emptyT [s "abcdef"]) = true := by
  refine ⟨fun t u => eqW_iff_same_words, ?_, ?_, by decide⟩
  · intro t
    exact eqW_iff_same_words.mpr (fun v => rfl)
  · intro t u
    have hsymm : eqW t u = true ↔ eqW u t = true := by
      rw [eqW_iff_same_words, eqW_iff_same_words]
      constructor <;> exact fun h v => (h v).symm
    rcases h1 : eqW t u with _ | _ <;> rcases h2 : eqW u t with _ | _
    · rfl
    · exact absurd (hsymm.mpr h2) (by simp [h1])
    · exact absurd (hsymm.mp h1) (by simp [h2])
    · rfl

/-- Claim C9: insertion is monotone and local — for every trie and all
words `v ≠ w`, `add(w)` leaves the membership of `v` unchanged: it never
removes an existing word and never makes any word other than `w` newly
contained. -/
theorem claim9_add_monotone_local (t : CTrie) (w v : Str) (h : v ≠ w) :
    containsW (addW t w).2 v = containsW t v :=
  containsW_addW t w v h

theorem claim9_add_monotone_local_witness :
    (s "a" : Str) ≠ s "ab" ∧
    containsW (addW (addW emptyT (s "a")).2 (s "ab")).2 (s "a")
      = containsW (addW emptyT (s "a")).2 (s "a") :=
  ⟨by decide, claim9_add_monotone_local _ _ _ (by decide)⟩

/-- Claim C10: in every trie reachable from the empty trie by any sequence
of add and remove operations, no node's children map contains an empty
child (one that is simultaneously non-terminal and childless): `is_empty`
can only hold of the root, because `remove` prunes emptied children
immediately. -/
theorem claim10_pruning_invariant (t : CTrie) (h : Reach t) :
    prunedI t = true := by
  induction h with
  | init => rfl
  | addR t w _ ih => exact addW_pruned t w ih
  | removeR t w _ ih => exact removeW_pruned t w ih

theorem claim10_pruning_invariant_witness :
    Reach (removeW (addW (addW emptyT (s "abc")).2 (s "abd")).2 (s "abc")).2 ∧
    prunedI (removeW (addW (addW emptyT (s "abc")).2 (s "abd")).2 (s "abc")).2
      = true :=
  ⟨Reach.removeR _ _ (Reach.addR _ _ (Reach.addR _ _ Reach.init)),
   claim10_pruning_invariant _
     (Reach.removeR _ _ (Reach.addR _ _ (Reach.addR _ _ Reach.init)))⟩

end Ctrie
